import Mathlib

/-!
Verification of the QueryHub backend against its natural-language
specification.  The definitions below are shallow embeddings of the
Python functions in `backend/utils.py`, `backend/worker.py` and
`backend/routes.py`: text is a list of characters, machine integers are
`Nat` (the Python clamp `if start < 0: start = 0` coincides with
truncated `Nat` subtraction), and each external effect (embedding model,
Qdrant, Supabase) is a boolean oracle in an environment record.
Database writes are modelled as always succeeding; lists record the rows
and the job writes in the order the code commits them.
-/

/-- Whitespace stripping as used by Python `str.strip()` on the slices
the chunker produces: drop whitespace characters from both ends. -/
def pyStrip (l : List Char) : List Char :=
  ((l.dropWhile Char.isWhitespace).reverse.dropWhile Char.isWhitespace).reverse

/-- The advance of the `start` index in `chunk_text`
(`backend/utils.py` lines 40-42): `start = end - overlap` with
`end = start + chunk_size`, and a negative result is clamped to 0,
exactly as truncated `Nat` subtraction does. -/
def nextStart (size overlap start : Nat) : Nat :=
  (start + size) - overlap

/-- The successive values of the `start` variable of the `while` loop of
`chunk_text` in `backend/utils.py`. -/
def startSeq (size overlap : Nat) : Nat → Nat
  | 0 => 0
  | n + 1 => nextStart size overlap (startSeq size overlap n)

/-- The `while start < text_len` loop of `chunk_text` terminates exactly
when some iterate of the start index reaches the text length. -/
def chunkTerminates (textLen size overlap : Nat) : Prop :=
  ∃ n, textLen ≤ startSeq size overlap n

/-- Fuel-indexed unfolding of the `while` loop of `chunk_text`
(`backend/utils.py` lines 36-42): while `start < len(text)`, slice
`text[start : start + size]`, strip it, and advance `start`. -/
def chunkLoop (text : List Char) (size overlap : Nat) : Nat → Nat → List (List Char)
  | 0, _ => []
  | fuel + 1, start =>
    if start < text.length then
      pyStrip ((text.drop start).take size) ::
        chunkLoop text size overlap fuel (nextStart size overlap start)
    else []

/-- Embedding of `chunk_text(text, chunk_size, overlap)` from
`backend/utils.py`: run the slicing loop, then keep the non-empty
stripped chunks (`[c for c in chunks if c]`).  The fuel
`text.length + 1` is sufficient whenever `overlap < size`. -/
def chunk_text (text : List Char) (size overlap : Nat) : List (List Char) :=
  (chunkLoop text size overlap (text.length + 1) 0).filter (fun c => !c.isEmpty)

/-- Scenario A input: a 5000-character plain-text document. -/
def doc5000 : List Char := List.replicate 5000 'a'

/-- A persisted row of the `chunks` table (`backend/models.py` lines
18-26, created at `backend/worker.py` line 54).  The code never passes
`checksum`, so the field stays `none`. -/
structure ChunkRow where
  document_id : String
  chunk_index : Nat
  text : List Char
  token_count : Nat
  checksum : Option String
deriving DecidableEq

/-- A Qdrant point staged for upsert (`backend/worker.py` lines 61-66).
The point id is the fresh id of the chunk row; the model uses the chunk
index as the stand-in for that id, which is equally unique within a
run.  The payload carries `document_id`, `chunk_index`, `chunk_text`. -/
structure VectorPoint where
  id : Nat
  document_id : String
  chunk_index : Nat
  chunk_text : List Char
deriving DecidableEq

/-- One committed write of the `status` and `progress` columns of a Job
row (`backend/models.py` lines 36-43). -/
structure JobWrite where
  status : String
  progress : Nat
deriving DecidableEq

/-- Oracles for every external effect of `process_document`: text
extraction plus model load (`setupOk`), `model.encode` per chunk index,
the per-attempt get-or-create of the Qdrant collection, the batch
upsert, and the Supabase upload. -/
structure PipelineEnv where
  setupOk : Bool
  embedOk : Nat → Bool
  ensureOk : Nat → Bool
  upsertOk : Bool
  supabaseOk : Bool

/-- Outcome of the collection-ensuring retry loop: attempts made, 1 s
sleeps taken, and whether the collection ended up existing. -/
structure EnsureResult where
  attempts : Nat
  sleeps : Nat
  success : Bool
deriving DecidableEq

/-- The retry loop of `backend/worker.py` lines 88-118 (identical to
`ensure_collection_exists` in `backend/routes.py` lines 175-205): try up
to `remaining` attempts, sleeping 1 second between consecutive failed
attempts, and give up (raise) after the last one. -/
def ensureGo (ok : Nat → Bool) : Nat → Nat → EnsureResult
  | 0, _ => ⟨0, 0, false⟩
  | r + 1, attempt =>
    if ok attempt then ⟨1, 0, true⟩
    else if r = 0 then ⟨1, 0, false⟩
    else
      let rest := ensureGo ok (r) (attempt + 1)
      ⟨rest.attempts + 1, rest.sleeps + 1, rest.success⟩

/-- Ensure the per-document collection with `max_retries = 3` starting
at attempt 0. -/
def ensure_collection_exists (ok : Nat → Bool) : EnsureResult :=
  ensureGo ok 3 0

/-- Accumulated state of the per-chunk for-loop of `process_document`
(`backend/worker.py` lines 46-72). -/
structure IngestState where
  rows : List ChunkRow
  embCount : Nat
  staged : List VectorPoint
  progressWrites : List Nat
deriving DecidableEq

/-- The per-chunk for-loop of `process_document`: on every index with
`idx % 10 == 0 or idx == total - 1` commit a progress write of
`int((idx + 1) / total * 90)`; persist the Chunk row with
`token_count = len(c)` and no checksum; stage a vector point when
`model.encode` succeeds (a failure is logged and skipped); and always
persist an Embedding marker row. -/
def chunkIngestLoop (docId : String) (env : PipelineEnv) (total : Nat) :
    Nat → List (List Char) → IngestState
  | _, [] => ⟨[], 0, [], []⟩
  | idx, c :: rest =>
    let st := chunkIngestLoop docId env total (idx + 1) rest
    ⟨⟨docId, idx, c, c.length, none⟩ :: st.rows,
      st.embCount + 1,
      (if env.embedOk idx then [⟨idx, docId, idx, c⟩] else []) ++ st.staged,
      (if idx % 10 == 0 || idx == total - 1 then [((idx + 1) * 90) / total] else [])
        ++ st.progressWrites⟩

/-- The Qdrant section of `process_document` (`backend/worker.py` lines
74-131): skipped when nothing was staged; otherwise ensure the
collection and, on success, upsert the staged points.  A collection or
upsert failure is caught by the surrounding handler, so it only results
in nothing being upserted. -/
def qdrantPhase (env : PipelineEnv) (staged : List VectorPoint) :
    EnsureResult × List VectorPoint :=
  if staged.isEmpty then (⟨0, 0, false⟩, [])
  else
    let er := ensure_collection_exists env.ensureOk
    if er.success && env.upsertOk then (er, staged) else (er, [])

/-- Observable outcome of one ingestion run: the persisted rows, the
staged and upserted points, the collection-ensprocess bookkeeping, and
the ordered list of Job writes with the final status and progress. -/
structure RunResult where
  chunkRows : List ChunkRow
  embCount : Nat
  staged : List VectorPoint
  upserted : List VectorPoint
  ensureAttempts : Nat
  ensureSleeps : Nat
  ensureSuccess : Bool
  storageUploaded : Bool
  jobWrites : List JobWrite
  jobStatus : String
  jobProgress : Nat

/-- The happy path of `process_document` after extraction succeeded:
run the per-chunk loop, the Qdrant phase and the Supabase upload, then
commit the final write `status = done, progress = 100`.  The first Job
write is the creation commit `Job(document_id, status="processing")`
with the column default `progress = 0`. -/
def processChunks (docId : String) (env : PipelineEnv)
    (chunks : List (List Char)) : RunResult :=
  let st := chunkIngestLoop docId env chunks.length 0 chunks
  let qp := qdrantPhase env st.staged
  ⟨st.rows, st.embCount, st.staged, qp.2, qp.1.attempts, qp.1.sleeps, qp.1.success,
    env.supabaseOk,
    ⟨"processing", 0⟩ ::
      (st.progressWrites.map (fun p => ⟨"processing", p⟩) ++ [⟨"done", 100⟩]),
    "done", 100⟩

/-- Embedding of `process_document` (`backend/worker.py` lines 25-168):
if extraction or model loading raises, the handler commits a single
`failed` write and stops; otherwise the run processes the chunks
produced by `chunk_text` and always ends `done`. -/
def process_document (docId : String) (env : PipelineEnv) (text : List Char)
    (size overlap : Nat) : RunResult :=
  if env.setupOk then processChunks docId env (chunk_text text size overlap)
  else
    ⟨[], 0, [], [], 0, 0, false, false,
      [⟨"processing", 0⟩, ⟨"failed", 0⟩], "failed", 0⟩

/-- Environment in which every external interaction succeeds. -/
def benignEnv : PipelineEnv :=
  ⟨true, fun _ => true, fun _ => true, true, true⟩

/-- Environment in which the vector service is unreachable: every
collection-ensuring attempt fails. -/
def envNoVector : PipelineEnv :=
  ⟨true, fun _ => true, fun _ => false, true, true⟩

/-- Environment in which `model.encode` fails exactly on chunk index
`j` and everything else succeeds. -/
def envEmbedFail (j : Nat) : PipelineEnv :=
  ⟨true, fun i => decide (i ≠ j), fun _ => true, true, true⟩

/-- Document id used for concrete instantiations. -/
def docA : String := "d0"

/-- One hit returned by `qclient.search` in `retrieve_top_k`
(`backend/routes.py` line 229): a score and the `chunk_text` entry of
its payload (`payload.get("chunk_text") or ""`). -/
structure Hit where
  score : Int
  chunk_text : List Char
deriving DecidableEq

/-- One accepted context of `retrieve_top_k` (`backend/routes.py` line
248): the hit score, the possibly truncated text, and the original
payload text. -/
structure Ctx where
  score : Int
  text : List Char
  payloadText : List Char
deriving DecidableEq

/-- The ellipsis marker appended to a truncated context text. -/
def ellipsis : List Char := ['.', '.', '.']

/-- Truncation of a long chunk (`backend/routes.py` lines 245-246):
texts longer than 1000 characters are cut to 1000 and get the
ellipsis marker appended. -/
def truncateText (t : List Char) : List Char :=
  if 1000 < t.length then t.take 1000 ++ ellipsis else t

/-- The accept loop of `retrieve_top_k` (`backend/routes.py` lines
234-252): skip a hit whose first-200-character fingerprint was already
seen, otherwise record the fingerprint, append the truncated context,
and stop as soon as `k` contexts are collected. -/
def retrieveGo (k : Nat) : List Hit → List (List Char) → List Ctx → List Ctx
  | [], _, ctxs => ctxs
  | h :: rest, seen, ctxs =>
    if h.chunk_text.take 200 ∈ seen then retrieveGo k rest seen ctxs
    else
      let ctxs2 := ctxs ++ [⟨h.score, truncateText h.chunk_text, h.chunk_text⟩]
      if k ≤ ctxs2.length then ctxs2
      else retrieveGo k rest (h.chunk_text.take 200 :: seen) ctxs2

/-- Embedding of `retrieve_top_k(query, k, document_id)`
(`backend/routes.py` lines 208-260).  The local query embedding is
irrelevant to the returned structure; `qdrantOk` tells whether the
vector-service interactions (collection ensure, search) succeed, and
`hits` is the candidate list the search returns (the code requests
`2 * k` nearest neighbours).  Without a document id the function
returns `[]` before touching the vector service; any vector-service
failure is caught and converted to `[]`. -/
def retrieve_top_k (document_id : Option String) (qdrantOk : Bool)
    (hits : List Hit) (k : Nat) : List Ctx :=
  match document_id with
  | none => []
  | some _ => if qdrantOk then retrieveGo k hits [] [] else []

/-- The returned context `c` was produced from the first hit of the
candidate list whose fingerprint (first 200 characters) matches the
fingerprint of `c`. -/
def firstHitFor (hits : List Hit) (c : Ctx) : Prop :=
  hits.find? (fun h => h.chunk_text.take 200 == c.payloadText.take 200) =
    some ⟨c.score, c.payloadText⟩

theorem startSeq_stuck (n : Nat) : startSeq 1 1 n = 0 := by
  induction n with
  | zero => rfl
  | succ n ih => simp [startSeq, nextStart, ih]

/-- C1: the claim asserts that `chunk_text` terminates for every
`size > 0` and `overlap ≥ 0` because the implementation clamps when
`size ≤ overlap`.  The code only clamps a negative `start` back to 0,
which does not make the loop advance: on the one-character text `"a"`
with `size = 1` and `overlap = 1` the start index stays 0 forever and
the loop never exits. -/
theorem c1_chunk_loop_stuck_on_equal_size_overlap :
    chunkTerminates 1 1 1 ↔ False := by
  constructor
  · rintro ⟨n, hn⟩
    rw [startSeq_stuck n] at hn
    omega
  · intro h
    exact h.elim

theorem chunkLoop_stable (text : List Char) (size overlap : Nat)
    (hlt : overlap < size) :
    ∀ (f1 : Nat) (f2 start : Nat), text.length - start < f1 →
      text.length - start < f2 →
      chunkLoop text size overlap f1 start = chunkLoop text size overlap f2 start := by
  intro f1
  induction f1 with
  | zero => intro f2 start h1 _; omega
  | succ n ih =>
    intro f2 start h1 h2
    match f2 with
    | 0 => omega
    | m + 1 =>
      by_cases hs : start < text.length
      · have hnext : nextStart size overlap start = start + (size - overlap) := by
          unfold nextStart; omega
        have hrem : text.length - nextStart size overlap start < n := by
          rw [hnext]; omega
        have hrem2 : text.length - nextStart size overlap start < m := by
          rw [hnext]; omega
        simp only [chunkLoop, if_pos hs]
        rw [ih m (nextStart size overlap start) hrem hrem2]
      · simp only [chunkLoop, if_neg hs]

/-- C9: the chunker is deterministic.  In the embedding `chunk_text` is a
pure function, so two calls on identical input are definitionally equal;
the substantive content is that for `0 < size` and `overlap < size` the
loop value is independent of the fuel once the fuel exceeds the text
length, so the returned sequence is the unique stabilised output of the
loop. -/
theorem c9_chunk_text_deterministic (text : List Char) (size overlap : Nat)
    (_hsize : 0 < size) (hlt : overlap < size) :
    chunk_text text size overlap = chunk_text text size overlap ∧
      ∀ fuel, text.length < fuel →
        chunk_text text size overlap =
          (chunkLoop text size overlap fuel 0).filter (fun c => !c.isEmpty) := by
  refine ⟨rfl, ?_⟩
  intro fuel hfuel
  unfold chunk_text
  rw [chunkLoop_stable text size overlap hlt (text.length + 1) fuel 0 (by omega) (by omega)]

theorem c9_chunk_text_deterministic_witness :
    0 < 2 ∧ 1 < 2 ∧
      (chunk_text ['a'] 2 1 = chunk_text ['a'] 2 1 ∧
        ∀ fuel, (['a'] : List Char).length < fuel →
          chunk_text ['a'] 2 1 =
            (chunkLoop ['a'] 2 1 fuel 0).filter (fun c => !c.isEmpty)) :=
  ⟨by decide, by decide, c9_chunk_text_deterministic ['a'] 2 1 (by decide) (by decide)⟩

theorem chunkLoop_step (text : List Char) (size overlap fuel start : Nat)
    (hs : start < text.length) (hf : 0 < fuel) :
    chunkLoop text size overlap fuel start =
      pyStrip ((text.drop start).take size) ::
        chunkLoop text size overlap (fuel - 1) (nextStart size overlap start) := by
  match fuel with
  | 0 => omega
  | f + 1 => simp only [chunkLoop, if_pos hs, Nat.add_sub_cancel]

theorem chunkLoop_stop (text : List Char) (size overlap fuel start : Nat)
    (hs : text.length ≤ start) :
    chunkLoop text size overlap fuel start = [] := by
  match fuel with
  | 0 => rfl
  | f + 1 => simp only [chunkLoop, if_neg (Nat.not_lt.mpr hs)]

theorem dropWhile_ws_replicate_a (n : Nat) :
    (List.replicate n 'a').dropWhile Char.isWhitespace = List.replicate n 'a' := by
  cases n with
  | zero => rfl
  | succ m =>
    rw [List.replicate_succ, List.dropWhile_cons]
    simp only [show Char.isWhitespace 'a' = false by decide]
    simp

theorem pyStrip_replicate_a (n : Nat) :
    pyStrip (List.replicate n 'a') = List.replicate n 'a' := by
  unfold pyStrip
  rw [dropWhile_ws_replicate_a, List.reverse_replicate, dropWhile_ws_replicate_a,
    List.reverse_replicate]

theorem replicate_a_not_isEmpty (n : Nat) (hn : 0 < n) :
    (!(List.replicate n 'a').isEmpty) = true := by
  match n with
  | 0 => omega
  | m + 1 => rw [List.replicate_succ]; rfl

theorem chunk_text_doc5000 :
    chunk_text doc5000 2000 200 =
      [List.replicate 2000 'a', List.replicate 2000 'a', List.replicate 1400 'a'] := by
  have hlen : doc5000.length = 5000 := by
    unfold doc5000; rw [List.length_replicate]
  have hdrop : ∀ k, doc5000.drop k = List.replicate (5000 - k) 'a' := by
    intro k; unfold doc5000; rw [List.drop_replicate]
  unfold chunk_text
  rw [hlen]
  rw [chunkLoop_step _ _ _ _ _ (by rw [hlen]; omega) (by omega)]
  rw [show nextStart 2000 200 0 = 1800 by unfold nextStart; omega]
  rw [chunkLoop_step _ _ _ _ _ (by rw [hlen]; omega) (by omega)]
  rw [show nextStart 2000 200 1800 = 3600 by unfold nextStart; omega]
  rw [chunkLoop_step _ _ _ _ _ (by rw [hlen]; omega) (by omega)]
  rw [show nextStart 2000 200 3600 = 5400 by unfold nextStart; omega]
  rw [chunkLoop_stop _ _ _ _ _ (by rw [hlen]; omega)]
  rw [hdrop 0, hdrop 1800, hdrop 3600]
  rw [List.take_replicate, List.take_replicate, List.take_replicate]
  rw [pyStrip_replicate_a, pyStrip_replicate_a, pyStrip_replicate_a]
  norm_num

/-- C2: Scenario A.  Chunking the 5000-character document with size 2000
and overlap 200 yields exactly 3 chunks (windows 0-2000, 1800-3800,
3600-5000), and the ingestion run over it ends with the Job `done` at
progress 100. -/
theorem c2_scenario_a :
    (chunk_text doc5000 2000 200).length = 3 ∧
      (process_document docA benignEnv doc5000 2000 200).jobStatus = "done" ∧
      (process_document docA benignEnv doc5000 2000 200).jobProgress = 100 := by
  refine ⟨?_, ?_, ?_⟩
  · rw [chunk_text_doc5000]; rfl
  · simp [process_document, benignEnv, processChunks]
  · simp [process_document, benignEnv, processChunks]

theorem progressWrites_mem (docId : String) (env : PipelineEnv) (total : Nat) :
    ∀ (rest : List (List Char)) (idx p : Nat),
      p ∈ (chunkIngestLoop docId env total idx rest).progressWrites →
      ∃ j, idx ≤ j ∧ j < idx + rest.length ∧ p = ((j + 1) * 90) / total := by
  intro rest
  induction rest with
  | nil => intro idx p hp; simp [chunkIngestLoop] at hp
  | cons c rest ih =>
    intro idx p hp
    simp only [chunkIngestLoop, List.mem_append] at hp
    rcases hp with hp | hp
    · by_cases hcond : (idx % 10 == 0 || idx == total - 1) = true
      · rw [if_pos hcond] at hp
        simp only [List.mem_singleton] at hp
        exact ⟨idx, le_refl idx, by simp only [List.length_cons]; omega, hp⟩
      · rw [if_neg hcond] at hp
        simp at hp
    · obtain ⟨j, hj1, hj2, hj3⟩ := ih (idx + 1) p hp
      exact ⟨j, by omega, by simp only [List.length_cons]; omega, hj3⟩

theorem progressWrites_pairwise (docId : String) (env : PipelineEnv) (total : Nat) :
    ∀ (rest : List (List Char)) (idx : Nat),
      List.Pairwise (· ≤ ·) (chunkIngestLoop docId env total idx rest).progressWrites := by
  intro rest
  induction rest with
  | nil => intro idx; simp [chunkIngestLoop]
  | cons c rest ih =>
    intro idx
    simp only [chunkIngestLoop]
    rw [List.pairwise_append]
    refine ⟨?_, ih (idx + 1), ?_⟩
    · split <;> simp
    · intro a ha b hb
      obtain ⟨j, hj1, _, hj3⟩ := progressWrites_mem docId env total rest (idx + 1) b hb
      split at ha
      · simp only [List.mem_singleton] at ha
        subst ha; subst hj3
        exact Nat.div_le_div_right (by omega)
      · simp at ha

theorem progressWrites_le_90 (docId : String) (env : PipelineEnv)
    (rest : List (List Char)) (idx total : Nat) (htot : idx + rest.length ≤ total) :
    ∀ p ∈ (chunkIngestLoop docId env total idx rest).progressWrites, p ≤ 90 := by
  intro p hp
  obtain ⟨j, hj1, hj2, hj3⟩ := progressWrites_mem docId env total rest idx p hp
  subst hj3
  have htpos : 0 < total := by omega
  calc ((j + 1) * 90) / total ≤ (total * 90) / total := Nat.div_le_div_right (by omega)
    _ = 90 := Nat.mul_div_cancel_left 90 htpos

theorem processChunks_jobWrites_spec (docId : String) (env : PipelineEnv)
    (chunks : List (List Char)) :
    (processChunks docId env chunks).jobWrites.head? = some ⟨"processing", 0⟩ ∧
    List.Pairwise (fun a b : JobWrite => a.progress ≤ b.progress)
      (processChunks docId env chunks).jobWrites ∧
    (∀ w ∈ (processChunks docId env chunks).jobWrites, w.progress ≤ 100) ∧
    (∀ w ∈ (processChunks docId env chunks).jobWrites,
      (w.progress = 100 ↔ w.status = "done")) ∧
    (∀ w ∈ (processChunks docId env chunks).jobWrites.dropLast,
      w.status = "processing") ∧
    (∀ w, (processChunks docId env chunks).jobWrites.getLast? = some w →
      w.status = "done" ∨ w.status = "failed") := by
  have hb := progressWrites_le_90 docId env chunks 0 chunks.length (by omega)
  have hpw := progressWrites_pairwise docId env chunks.length chunks 0
  simp only [processChunks]
  refine ⟨rfl, ?_, ?_, ?_, ?_, ?_⟩
  · rw [List.pairwise_cons]
    constructor
    · intro b _; exact Nat.zero_le _
    · rw [List.pairwise_append]
      refine ⟨hpw.map _ (fun a b h => h), by simp, ?_⟩
      intro a ha b hb2
      obtain ⟨p, hp, rfl⟩ := List.mem_map.mp ha
      simp only [List.mem_singleton] at hb2
      subst hb2
      show p ≤ 100
      exact le_trans (hb p hp) (by omega)
  · intro w hw
    rcases List.mem_cons.mp hw with rfl | hw
    · decide
    rcases List.mem_append.mp hw with hw | hw
    · obtain ⟨p, hp, rfl⟩ := List.mem_map.mp hw
      show p ≤ 100
      exact le_trans (hb p hp) (by omega)
    · simp only [List.mem_singleton] at hw; subst hw; decide
  · intro w hw
    rcases List.mem_cons.mp hw with rfl | hw
    · exact ⟨fun h => absurd h (by decide), fun h => absurd h (by decide)⟩
    rcases List.mem_append.mp hw with hw | hw
    · obtain ⟨p, hp, rfl⟩ := List.mem_map.mp hw
      have hle := hb p hp
      constructor
      · intro h
        have hp100 : p = 100 := h
        omega
      · intro h
        have hst : ("processing" : String) = "done" := h
        exact absurd hst (by decide)
    · simp only [List.mem_singleton] at hw; subst hw
      exact ⟨fun _ => rfl, fun _ => rfl⟩
  · intro w hw
    rw [show (⟨"processing", 0⟩ :: ((chunkIngestLoop docId env chunks.length 0
          chunks).progressWrites.map (fun p => (⟨"processing", p⟩ : JobWrite)) ++
          [⟨"done", 100⟩])) = ((⟨"processing", 0⟩ :: (chunkIngestLoop docId env
          chunks.length 0 chunks).progressWrites.map
          (fun p => (⟨"processing", p⟩ : JobWrite))) ++ [⟨"done", 100⟩]) from by simp,
      List.dropLast_concat] at hw
    rcases List.mem_cons.mp hw with rfl | hw
    · rfl
    · obtain ⟨p, hp, rfl⟩ := List.mem_map.mp hw; rfl
  · intro w hw
    rw [show (⟨"processing", 0⟩ :: ((chunkIngestLoop docId env chunks.length 0
          chunks).progressWrites.map (fun p => (⟨"processing", p⟩ : JobWrite)) ++
          [⟨"done", 100⟩])) = ((⟨"processing", 0⟩ :: (chunkIngestLoop docId env
          chunks.length 0 chunks).progressWrites.map
          (fun p => (⟨"processing", p⟩ : JobWrite))) ++ [⟨"done", 100⟩]) from by simp,
      List.getLast?_concat] at hw
    rw [Option.some_inj] at hw
    subst hw
    left; rfl

/-- C3: every Job instance written by the pipeline is created directly
as `processing` with progress 0; its committed progress values are
monotonically non-decreasing and bounded by 100; a write carries
progress 100 exactly when it carries status `done`; every write before
the last one is a `processing` write; and the last write is the single
terminal `done` or `failed` write, after which nothing more is written. -/
theorem c3_job_write_invariants (docId : String) (env : PipelineEnv)
    (text : List Char) (size overlap : Nat) :
    (process_document docId env text size overlap).jobWrites.head? =
        some ⟨"processing", 0⟩ ∧
    List.Pairwise (fun a b : JobWrite => a.progress ≤ b.progress)
      (process_document docId env text size overlap).jobWrites ∧
    (∀ w ∈ (process_document docId env text size overlap).jobWrites,
      w.progress ≤ 100) ∧
    (∀ w ∈ (process_document docId env text size overlap).jobWrites,
      (w.progress = 100 ↔ w.status = "done")) ∧
    (∀ w ∈ (process_document docId env text size overlap).jobWrites.dropLast,
      w.status = "processing") ∧
    (∀ w, (process_document docId env text size overlap).jobWrites.getLast? =
        some w → w.status = "done" ∨ w.status = "failed") := by
  by_cases hsetup : env.setupOk
  · simp only [process_document, if_pos hsetup]
    exact processChunks_jobWrites_spec docId env (chunk_text text size overlap)
  · simp only [process_document, if_neg hsetup]
    refine ⟨rfl, by decide, by decide, by decide, by decide, ?_⟩
    intro w hw
    simp only [List.getLast?] at hw
    rw [Option.some_inj] at hw
    subst hw
    right; rfl

theorem c3_job_write_invariants_witness :
    ((⟨"done", 100⟩ : JobWrite) ∈
        (process_document docA benignEnv ['a'] 2 1).jobWrites) ∧
      ((⟨"done", 100⟩ : JobWrite).progress = 100 ↔
        (⟨"done", 100⟩ : JobWrite).status = "done") :=
  ⟨by decide,
    (c3_job_write_invariants docA benignEnv ['a'] 2 1).2.2.2.1 ⟨"done", 100⟩
      (by decide)⟩

theorem ingest_rows_map_index (docId : String) (env : PipelineEnv) (total : Nat) :
    ∀ (rest : List (List Char)) (idx : Nat),
      (chunkIngestLoop docId env total idx rest).rows.map ChunkRow.chunk_index =
        List.range' idx rest.length := by
  intro rest
  induction rest with
  | nil => intro idx; rfl
  | cons c rest ih =>
    intro idx
    simp only [chunkIngestLoop, List.map_cons, List.length_cons, List.range'_succ]
    rw [ih (idx + 1)]

theorem ingest_rows_length (docId : String) (env : PipelineEnv) (total : Nat)
    (rest : List (List Char)) (idx : Nat) :
    (chunkIngestLoop docId env total idx rest).rows.length = rest.length := by
  have h := ingest_rows_map_index docId env total rest idx
  have h2 := congrArg List.length h
  rwa [List.length_map, List.length_range'] at h2

theorem ingest_rows_fields (docId : String) (env : PipelineEnv) (total : Nat) :
    ∀ (rest : List (List Char)) (idx : Nat),
      ∀ row ∈ (chunkIngestLoop docId env total idx rest).rows,
        row.token_count = row.text.length ∧ row.checksum = none ∧
          row.document_id = docId := by
  intro rest
  induction rest with
  | nil => intro idx row hrow; simp [chunkIngestLoop] at hrow
  | cons c rest ih =>
    intro idx row hrow
    simp only [chunkIngestLoop] at hrow
    rcases List.mem_cons.mp hrow with rfl | hrow
    · exact ⟨rfl, rfl, rfl⟩
    · exact ih (idx + 1) row hrow

theorem ingest_staged_length (docId : String) (env : PipelineEnv) (total : Nat) :
    ∀ (rest : List (List Char)) (idx : Nat),
      (chunkIngestLoop docId env total idx rest).staged.length =
        (List.range' idx rest.length).countP (fun i => env.embedOk i) := by
  intro rest
  induction rest with
  | nil => intro idx; rfl
  | cons c rest ih =>
    intro idx
    simp only [chunkIngestLoop, List.length_cons, List.range'_succ, List.countP_cons,
      List.length_append]
    rw [ih (idx + 1)]
    by_cases h : env.embedOk idx
    · simp [h]; omega
    · simp [h]

/-- C8: the persisted chunk rows have `chunk_index` values exactly
`0 .. N - 1` with no gaps, in creation order, and the run completes
with the Job `done` even when `N = 0` (zero rows is a valid terminal
state, not a failure). -/
theorem c8_chunk_index_density (docId : String) (env : PipelineEnv)
    (chunks : List (List Char)) :
    (processChunks docId env chunks).chunkRows.map ChunkRow.chunk_index =
        List.range chunks.length ∧
      (processChunks docId env chunks).chunkRows.length = chunks.length ∧
      (processChunks docId env chunks).jobStatus = "done" := by
  refine ⟨?_, ?_, rfl⟩
  · show (chunkIngestLoop docId env chunks.length 0 chunks).rows.map
        ChunkRow.chunk_index = List.range chunks.length
    rw [ingest_rows_map_index, List.range_eq_range']
  · exact ingest_rows_length docId env chunks.length chunks 0

/-- C10: every persisted chunk row stores the character length of its
text in `token_count` (not a model token count) and never populates
`checksum`. -/
theorem c10_token_count_and_checksum (docId : String) (env : PipelineEnv)
    (chunks : List (List Char)) :
    ∀ row ∈ (processChunks docId env chunks).chunkRows,
      row.token_count = row.text.length ∧ row.checksum = none := by
  intro row hrow
  have h := ingest_rows_fields docId env chunks.length chunks 0 row hrow
  exact ⟨h.1, h.2.1⟩

theorem c10_token_count_and_checksum_witness :
    ((⟨docA, 0, ['a'], 1, none⟩ : ChunkRow) ∈
        (processChunks docA benignEnv [['a']]).chunkRows) ∧
      ((⟨docA, 0, ['a'], 1, none⟩ : ChunkRow).token_count =
          (⟨docA, 0, ['a'], 1, none⟩ : ChunkRow).text.length ∧
        (⟨docA, 0, ['a'], 1, none⟩ : ChunkRow).checksum = none) :=
  ⟨by decide,
    c10_token_count_and_checksum docA benignEnv [['a']] ⟨docA, 0, ['a'], 1, none⟩
      (by decide)⟩

/-- C4: a per-chunk embedding failure is non-fatal.  If `model.encode`
fails for exactly one chunk index `j` of a 3-chunk document and
everything else succeeds, the run still persists all 3 Chunk rows and 3
Embedding marker rows, stages and upserts exactly 2 vector points, and
the Job still ends `done` at progress 100. -/
theorem c4_embed_failure_nonfatal (docId : String) (c0 c1 c2 : List Char)
    (j : Nat) (hj : j < 3) :
    (processChunks docId (envEmbedFail j) [c0, c1, c2]).chunkRows.length = 3 ∧
    (processChunks docId (envEmbedFail j) [c0, c1, c2]).embCount = 3 ∧
    (processChunks docId (envEmbedFail j) [c0, c1, c2]).staged.length = 2 ∧
    (processChunks docId (envEmbedFail j) [c0, c1, c2]).upserted.length = 2 ∧
    (processChunks docId (envEmbedFail j) [c0, c1, c2]).jobStatus = "done" ∧
    (processChunks docId (envEmbedFail j) [c0, c1, c2]).jobProgress = 100 := by
  interval_cases j <;>
    simp [processChunks, chunkIngestLoop, qdrantPhase, envEmbedFail,
      ensure_collection_exists, ensureGo]

theorem c4_embed_failure_nonfatal_witness :
    1 < 3 ∧
      ((processChunks docA (envEmbedFail 1) [['a'], ['b'], ['c']]).chunkRows.length
          = 3 ∧
        (processChunks docA (envEmbedFail 1) [['a'], ['b'], ['c']]).embCount = 3 ∧
        (processChunks docA (envEmbedFail 1) [['a'], ['b'], ['c']]).staged.length
          = 2 ∧
        (processChunks docA (envEmbedFail 1) [['a'], ['b'], ['c']]).upserted.length
          = 2 ∧
        (processChunks docA (envEmbedFail 1) [['a'], ['b'], ['c']]).jobStatus
          = "done" ∧
        (processChunks docA (envEmbedFail 1) [['a'], ['b'], ['c']]).jobProgress
          = 100) :=
  ⟨by decide, c4_embed_failure_nonfatal docA ['a'] ['b'] ['c'] 1 (by decide)⟩

theorem ensureGo_spec (ok : Nat → Bool) :
    ∀ (r a : Nat), (ensureGo ok r a).attempts ≤ r ∧
      (0 < r → 0 < (ensureGo ok r a).attempts) ∧
      (ensureGo ok r a).sleeps = (ensureGo ok r a).attempts - 1 := by
  intro r
  induction r with
  | zero => intro a; exact ⟨le_refl 0, by omega, rfl⟩
  | succ n ih =>
    intro a
    simp only [ensureGo]
    by_cases h : ok a
    · rw [if_pos h]
      refine ⟨?_, fun _ => ?_, rfl⟩
      · show 1 ≤ n + 1; omega
      · show 0 < 1; omega
    · rw [if_neg h]
      by_cases hn : n = 0
      · subst hn
        rw [if_pos rfl]
        refine ⟨?_, fun _ => ?_, rfl⟩
        · show 1 ≤ 0 + 1; omega
        · show 0 < 1; omega
      · rw [if_neg hn]
        obtain ⟨h1, h2, h3⟩ := ih (a + 1)
        have hpos : 0 < (ensureGo ok n (a + 1)).attempts := h2 (by omega)
        refine ⟨?_, fun _ => ?_, ?_⟩
        · show (ensureGo ok n (a + 1)).attempts + 1 ≤ n + 1
          omega
        · show 0 < (ensureGo ok n (a + 1)).attempts + 1
          omega
        · show (ensureGo ok n (a + 1)).sleeps + 1 =
            (ensureGo ok n (a + 1)).attempts + 1 - 1
          omega

theorem qdrantPhase_spec (env : PipelineEnv) (staged : List VectorPoint) :
    (qdrantPhase env staged).1.attempts ≤ 3 ∧
    (qdrantPhase env staged).1.sleeps = (qdrantPhase env staged).1.attempts - 1 ∧
    ((qdrantPhase env staged).1.success = false ∨ env.upsertOk = false →
      (qdrantPhase env staged).2 = []) := by
  unfold qdrantPhase
  by_cases hemp : staged.isEmpty
  · rw [if_pos hemp]
    refine ⟨?_, rfl, fun _ => rfl⟩
    show (0 : Nat) ≤ 3
    omega
  · rw [if_neg hemp]
    show (if (ensure_collection_exists env.ensureOk).success && env.upsertOk then
          (ensure_collection_exists env.ensureOk, staged)
        else (ensure_collection_exists env.ensureOk, [])).1.attempts ≤ 3 ∧ _
    obtain ⟨h1, _, h3⟩ := ensureGo_spec env.ensureOk 3 0
    by_cases hup : ((ensure_collection_exists env.ensureOk).success &&
        env.upsertOk) = true
    · rw [if_pos hup]
      refine ⟨h1, h3, ?_⟩
      intro hfail
      exfalso
      rw [Bool.and_eq_true] at hup
      rcases hfail with hfail | hfail
      · rw [hup.1] at hfail; exact Bool.noConfusion hfail
      · rw [hup.2] at hfail; exact Bool.noConfusion hfail
    · rw [if_neg hup]
      exact ⟨h1, h3, fun _ => rfl⟩

/-- C5: the collection-ensuring loop makes at most 3 attempts with a
1-second sleep between consecutive attempts, and when every attempt
fails (or the subsequent batch upsert fails) the failure is absorbed:
nothing is upserted but the Job still ends `done` with every chunk row
persisted. -/
theorem c5_ensure_retry_bounded_and_absorbed (docId : String)
    (env : PipelineEnv) (chunks : List (List Char)) :
    (processChunks docId env chunks).ensureAttempts ≤ 3 ∧
    (processChunks docId env chunks).ensureSleeps =
      (processChunks docId env chunks).ensureAttempts - 1 ∧
    ((processChunks docId env chunks).ensureSuccess = false ∨
        env.upsertOk = false →
      (processChunks docId env chunks).jobStatus = "done" ∧
      (processChunks docId env chunks).chunkRows.length = chunks.length ∧
      (processChunks docId env chunks).upserted = []) := by
  have hrows := ingest_rows_length docId env chunks.length chunks 0
  have hq := qdrantPhase_spec env (chunkIngestLoop docId env chunks.length 0 chunks).staged
  exact ⟨hq.1, hq.2.1, fun hfail => ⟨rfl, hrows, hq.2.2 hfail⟩⟩

theorem c5_ensure_retry_bounded_and_absorbed_witness :
    ((processChunks docA envNoVector [['a']]).ensureSuccess = false ∨
        envNoVector.upsertOk = false) ∧
      ((processChunks docA envNoVector [['a']]).jobStatus = "done" ∧
        (processChunks docA envNoVector [['a']]).chunkRows.length =
          ([['a']] : List (List Char)).length ∧
        (processChunks docA envNoVector [['a']]).upserted = []) :=
  ⟨Or.inl (by decide),
    (c5_ensure_retry_bounded_and_absorbed docA envNoVector [['a']]).2.2
      (Or.inl (by decide))⟩

theorem retrieveGo_cons_skip (k : Nat) (h : Hit) (rest : List Hit)
    (seen : List (List Char)) (ctxs : List Ctx)
    (hmem : h.chunk_text.take 200 ∈ seen) :
    retrieveGo k (h :: rest) seen ctxs = retrieveGo k rest seen ctxs := by
  simp only [retrieveGo, if_pos hmem]

theorem retrieveGo_cons_keep_stop (k : Nat) (h : Hit) (rest : List Hit)
    (seen : List (List Char)) (ctxs : List Ctx)
    (hmem : h.chunk_text.take 200 ∉ seen) (hk : k ≤ ctxs.length + 1) :
    retrieveGo k (h :: rest) seen ctxs =
      ctxs ++ [⟨h.score, truncateText h.chunk_text, h.chunk_text⟩] := by
  simp only [retrieveGo, if_neg hmem]
  rw [if_pos (by simp only [List.length_append, List.length_singleton]; omega)]

theorem retrieveGo_cons_keep_go (k : Nat) (h : Hit) (rest : List Hit)
    (seen : List (List Char)) (ctxs : List Ctx)
    (hmem : h.chunk_text.take 200 ∉ seen) (hk : ctxs.length + 1 < k) :
    retrieveGo k (h :: rest) seen ctxs =
      retrieveGo k rest (h.chunk_text.take 200 :: seen)
        (ctxs ++ [⟨h.score, truncateText h.chunk_text, h.chunk_text⟩]) := by
  simp only [retrieveGo, if_neg hmem]
  rw [if_neg (by simp only [List.length_append, List.length_singleton]; omega)]

theorem retrieveGo_length (k : Nat) :
    ∀ (hits : List Hit) (seen : List (List Char)) (ctxs : List Ctx),
      ctxs.length < k → (retrieveGo k hits seen ctxs).length ≤ k := by
  intro hits
  induction hits with
  | nil => intro seen ctxs hlen; exact le_of_lt hlen
  | cons h rest ih =>
    intro seen ctxs hlen
    by_cases hmem : h.chunk_text.take 200 ∈ seen
    · rw [retrieveGo_cons_skip k h rest seen ctxs hmem]
      exact ih seen ctxs hlen
    · by_cases hk : k ≤ ctxs.length + 1
      · rw [retrieveGo_cons_keep_stop k h rest seen ctxs hmem hk]
        simp only [List.length_append, List.length_singleton]
        omega
      · rw [retrieveGo_cons_keep_go k h rest seen ctxs hmem (by omega)]
        apply ih
        simp only [List.length_append, List.length_singleton]
        omega

theorem retrieveGo_pairwise (k : Nat) :
    ∀ (hits : List Hit) (seen : List (List Char)) (ctxs : List Ctx),
      (∀ c ∈ ctxs, c.payloadText.take 200 ∈ seen) →
      List.Pairwise
        (fun a b : Ctx => a.payloadText.take 200 ≠ b.payloadText.take 200) ctxs →
      List.Pairwise
        (fun a b : Ctx => a.payloadText.take 200 ≠ b.payloadText.take 200)
        (retrieveGo k hits seen ctxs) := by
  intro hits
  induction hits with
  | nil => intro seen ctxs _ hpw; exact hpw
  | cons h rest ih =>
    intro seen ctxs hinv hpw
    by_cases hmem : h.chunk_text.take 200 ∈ seen
    · rw [retrieveGo_cons_skip k h rest seen ctxs hmem]
      exact ih seen ctxs hinv hpw
    · have hpw2 : List.Pairwise
          (fun a b : Ctx => a.payloadText.take 200 ≠ b.payloadText.take 200)
          (ctxs ++ [⟨h.score, truncateText h.chunk_text, h.chunk_text⟩]) := by
        rw [List.pairwise_append]
        refine ⟨hpw, by simp, ?_⟩
        intro a ha b hb
        simp only [List.mem_singleton] at hb
        subst hb
        show a.payloadText.take 200 ≠ h.chunk_text.take 200
        intro heq
        exact hmem (heq ▸ hinv a ha)
      by_cases hk : k ≤ ctxs.length + 1
      · rw [retrieveGo_cons_keep_stop k h rest seen ctxs hmem hk]
        exact hpw2
      · rw [retrieveGo_cons_keep_go k h rest seen ctxs hmem (by omega)]
        apply ih
        · intro c hc
          rcases List.mem_append.mp hc with hc | hc
          · exact List.mem_cons_of_mem _ (hinv c hc)
          · simp only [List.mem_singleton] at hc
            subst hc
            exact List.mem_cons_self _ _
        · exact hpw2

theorem retrieveGo_shape (k : Nat) :
    ∀ (hits : List Hit) (seen : List (List Char)) (ctxs : List Ctx),
      (∀ c ∈ ctxs, c.text = truncateText c.payloadText) →
      ∀ c ∈ retrieveGo k hits seen ctxs, c.text = truncateText c.payloadText := by
  intro hits
  induction hits with
  | nil => intro seen ctxs hshape; exact hshape
  | cons h rest ih =>
    intro seen ctxs hshape
    have hshape2 : ∀ c ∈ ctxs ++ [⟨h.score, truncateText h.chunk_text,
        h.chunk_text⟩], c.text = truncateText c.payloadText := by
      intro c hc
      rcases List.mem_append.mp hc with hc | hc
      · exact hshape c hc
      · simp only [List.mem_singleton] at hc
        subst hc
        rfl
    by_cases hmem : h.chunk_text.take 200 ∈ seen
    · rw [retrieveGo_cons_skip k h rest seen ctxs hmem]
      exact ih seen ctxs hshape
    · by_cases hk : k ≤ ctxs.length + 1
      · rw [retrieveGo_cons_keep_stop k h rest seen ctxs hmem hk]
        exact hshape2
      · rw [retrieveGo_cons_keep_go k h rest seen ctxs hmem (by omega)]
        exact ih _ _ hshape2

theorem truncateText_length (t : List Char) :
    (truncateText t).length ≤ 1003 := by
  unfold truncateText
  split
  · rw [List.length_append, List.length_take]
    show min 1000 t.length + ellipsis.length ≤ 1003
    have : ellipsis.length = 3 := rfl
    omega
  · omega

theorem retrieveGo_first (k : Nat) :
    ∀ (rest pre : List Hit) (seen : List (List Char)) (ctxs : List Ctx),
      (∀ fp, fp ∈ seen ↔ ∃ h ∈ pre, h.chunk_text.take 200 = fp) →
      (∀ c ∈ ctxs, firstHitFor (pre ++ rest) c) →
      ∀ c ∈ retrieveGo k rest seen ctxs, firstHitFor (pre ++ rest) c := by
  intro rest
  induction rest with
  | nil => intro pre seen ctxs _ hctxs; exact hctxs
  | cons h rest ih =>
    intro pre seen ctxs hseen hctxs
    have hassoc : (pre ++ [h]) ++ rest = pre ++ h :: rest := by
      rw [List.append_assoc, List.singleton_append]
    by_cases hmem : h.chunk_text.take 200 ∈ seen
    · rw [retrieveGo_cons_skip k h rest seen ctxs hmem]
      have hseen2 : ∀ fp, fp ∈ seen ↔
          ∃ h2 ∈ pre ++ [h], h2.chunk_text.take 200 = fp := by
        intro fp
        constructor
        · intro hfp
          obtain ⟨h2, hh2, he⟩ := (hseen fp).mp hfp
          exact ⟨h2, List.mem_append_left _ hh2, he⟩
        · rintro ⟨h2, hh2, rfl⟩
          rcases List.mem_append.mp hh2 with hh2 | hh2
          · exact (hseen _).mpr ⟨h2, hh2, rfl⟩
          · simp only [List.mem_singleton] at hh2
            subst hh2
            exact hmem
      have := ih (pre ++ [h]) seen ctxs hseen2 (by rw [hassoc]; exact hctxs)
      rw [hassoc] at this
      exact this
    · have hfirst : firstHitFor (pre ++ h :: rest)
          ⟨h.score, truncateText h.chunk_text, h.chunk_text⟩ := by
        unfold firstHitFor
        rw [List.find?_append]
        have hnone : pre.find?
            (fun h2 => h2.chunk_text.take 200 == h.chunk_text.take 200) = none := by
          rw [List.find?_eq_none]
          intro x hx hbeq
          rw [beq_iff_eq] at hbeq
          exact hmem ((hseen _).mpr ⟨x, hx, hbeq⟩)
        rw [hnone, Option.none_or]
        rw [List.find?_cons_of_pos _ (by rw [beq_iff_eq])]
      have hctxs2 : ∀ c ∈ ctxs ++ [⟨h.score, truncateText h.chunk_text,
          h.chunk_text⟩], firstHitFor (pre ++ h :: rest) c := by
        intro c hc
        rcases List.mem_append.mp hc with hc | hc
        · exact hctxs c hc
        · simp only [List.mem_singleton] at hc
          subst hc
          exact hfirst
      by_cases hk : k ≤ ctxs.length + 1
      · rw [retrieveGo_cons_keep_stop k h rest seen ctxs hmem hk]
        exact hctxs2
      · rw [retrieveGo_cons_keep_go k h rest seen ctxs hmem (by omega)]
        have hseen2 : ∀ fp, fp ∈ h.chunk_text.take 200 :: seen ↔
            ∃ h2 ∈ pre ++ [h], h2.chunk_text.take 200 = fp := by
          intro fp
          constructor
          · intro hfp
            rcases List.mem_cons.mp hfp with rfl | hfp
            · exact ⟨h, List.mem_append_right _ (List.mem_singleton.mpr rfl), rfl⟩
            · obtain ⟨h2, hh2, he⟩ := (hseen fp).mp hfp
              exact ⟨h2, List.mem_append_left _ hh2, he⟩
          · rintro ⟨h2, hh2, rfl⟩
            rcases List.mem_append.mp hh2 with hh2 | hh2
            · exact List.mem_cons_of_mem _ ((hseen _).mpr ⟨h2, hh2, rfl⟩)
            · simp only [List.mem_singleton] at hh2
              subst hh2
              exact List.mem_cons_self _ _
        have := ih (pre ++ [h]) (h.chunk_text.take 200 :: seen) _ hseen2
          (by rw [hassoc]; exact hctxs2)
        rw [hassoc] at this
        exact this

/-- C6: for every scope, every candidate list and every `k > 0`,
retrieval returns at most `k` contexts; no two returned contexts share
the same first-200-character fingerprint of their payload text, and the
kept context always comes from the first candidate hit carrying its
fingerprint (the candidate list arrives in descending score order); and
every returned text is the payload text truncated to at most 1000
characters with the ellipsis marker appended exactly when truncation
happened. -/
theorem c6_retrieve_dedup_kbound_truncate (document_id : Option String)
    (qdrantOk : Bool) (hits : List Hit) (k : Nat) (hk : 0 < k) :
    (retrieve_top_k document_id qdrantOk hits k).length ≤ k ∧
    List.Pairwise
      (fun a b : Ctx => a.payloadText.take 200 ≠ b.payloadText.take 200)
      (retrieve_top_k document_id qdrantOk hits k) ∧
    (∀ c ∈ retrieve_top_k document_id qdrantOk hits k,
      c.text = truncateText c.payloadText ∧ c.text.length ≤ 1003) ∧
    (∀ c ∈ retrieve_top_k document_id qdrantOk hits k, firstHitFor hits c) := by
  match document_id with
  | none =>
    refine ⟨by show (0 : Nat) ≤ k; omega, by simp [retrieve_top_k], ?_, ?_⟩ <;>
      · intro c hc
        simp [retrieve_top_k] at hc
  | some d =>
    match qdrantOk with
    | false =>
      refine ⟨by show (0 : Nat) ≤ k; omega, by simp [retrieve_top_k], ?_, ?_⟩ <;>
        · intro c hc
          simp [retrieve_top_k] at hc
    | true =>
      have hres : retrieve_top_k (some d) true hits k = retrieveGo k hits [] [] :=
        rfl
      rw [hres]
      refine ⟨?_, ?_, ?_, ?_⟩
      · exact retrieveGo_length k hits [] [] (by simpa using hk)
      · exact retrieveGo_pairwise k hits [] [] (by simp) (by simp)
      · intro c hc
        have hshape := retrieveGo_shape k hits [] [] (by simp) c hc
        exact ⟨hshape, hshape ▸ truncateText_length c.payloadText⟩
      · intro c hc
        have := retrieveGo_first k hits [] [] []
          (by intro fp; simp) (by simp) c hc
        rwa [List.nil_append] at this

theorem c6_retrieve_dedup_kbound_truncate_witness :
    0 < 1 ∧
      ((retrieve_top_k (some docA) true [⟨3, ['a']⟩] 1).length ≤ 1 ∧
        List.Pairwise
          (fun a b : Ctx => a.payloadText.take 200 ≠ b.payloadText.take 200)
          (retrieve_top_k (some docA) true [⟨3, ['a']⟩] 1) ∧
        (∀ c ∈ retrieve_top_k (some docA) true [⟨3, ['a']⟩] 1,
          c.text = truncateText c.payloadText ∧ c.text.length ≤ 1003) ∧
        (∀ c ∈ retrieve_top_k (some docA) true [⟨3, ['a']⟩] 1,
          firstHitFor [⟨3, ['a']⟩] c)) :=
  ⟨by decide,
    c6_retrieve_dedup_kbound_truncate (some docA) true [⟨3, ['a']⟩] 1 (by decide)⟩

/-- C7: retrieval never raises to its caller (it is a total function in
the embedding) and collapses to the empty list in exactly the two
non-result situations: no document scope was supplied, or the
vector-service interaction failed; with a scope and a working vector
service it returns the accept-loop value over the candidate hits. -/
theorem c7_retrieve_empty_cases :
    (∀ (qdrantOk : Bool) (hits : List Hit) (k : Nat),
      retrieve_top_k none qdrantOk hits k = []) ∧
    (∀ (d : String) (hits : List Hit) (k : Nat),
      retrieve_top_k (some d) false hits k = []) ∧
    (∀ (d : String) (hits : List Hit) (k : Nat),
      retrieve_top_k (some d) true hits k = retrieveGo k hits [] []) :=
  ⟨fun _ _ _ => rfl, fun _ _ _ => rfl, fun _ _ _ => rfl⟩
